import Mathlib

/-!
Shallow embedding of the YouTube stream extractor
(`src/services/youtubeExtractor.ts`) and proofs about its
identifier resolver, format classifier, stream scorer, format
aggregation and extraction orchestrator.

Modelling choices:
* JavaScript strings are lists of characters (`Str`), JavaScript
  numbers are rationals (`ℚ`), optional fields are `Option`.
* The WHATWG `new URL` constructor is modelled for the hierarchical
  `scheme://host/path?query#fragment` shape the extractor receives;
  inputs without a `scheme://` prefix fail to parse (throw), which is
  the behaviour the extractor relies on for its regex fallback.
* The network fetch is an explicit oracle mapping each client profile
  to the player response it would produce (`none` for a transport
  failure, timeout or non-success HTTP status), so the orchestrator
  becomes a pure function of its input and that oracle.
* `Array.prototype.sort` with the comparator
  `(a, b) => scoreFormat(b) - scoreFormat(a)` is modelled as a stable
  insertion sort descending by score (JavaScript sort is stable and the
  comparator is consistent, so only the resulting order matters).
-/

namespace YTX

/-- JavaScript strings, modelled as lists of characters. -/
abbrev Str := List Char

/-- Character list of a Lean string literal. -/
def chars (s : String) : Str := s.data

/-- Membership test of the regex character class `[A-Za-z0-9_-]`. -/
def isIdChar (c : Char) : Bool := c.isAlphanum || c == '_' || c == '-'

/-- Test of the full-string regex `/^[A-Za-z0-9_-]{11}$/`. -/
def isCanonicalId (s : Str) : Bool := s.length == 11 && s.all isIdChar

/-- Whitespace removed by JavaScript `String.prototype.trim`
(the common ASCII whitespace characters and no-break space). -/
def jsWhitespace (c : Char) : Bool :=
  c == ' ' || c == '\t' || c == '\n' || c == '\r' ||
  c == '\x0b' || c == '\x0c' || c == '\xa0'

/-- Model of JavaScript `String.prototype.trim`. -/
def jsTrim (s : Str) : Str :=
  ((s.dropWhile jsWhitespace).reverse.dropWhile jsWhitespace).reverse

/-- Truthiness of an optional JavaScript string: present and non-empty. -/
def optTruthy (o : Option Str) : Bool :=
  match o with
  | none => false
  | some s => !s.isEmpty

/-- JavaScript `a || b` on strings: `b` when `a` is falsy (empty). -/
def jsOr (a b : Str) : Str := if a.isEmpty then b else a

/-- Longest prefix of the string whose characters all fail `p`. -/
def takeUntil (p : Char → Bool) : Str → Str
  | [] => []
  | c :: cs => if p c then [] else c :: takeUntil p cs

/-- Remainder of the string from the first character satisfying `p`
(inclusive); empty when no character satisfies `p`. -/
def dropUntil (p : Char → Bool) : Str → Str
  | [] => []
  | c :: cs => if p c then c :: cs else dropUntil p cs

/-- Model of JavaScript `String.prototype.split` with a one-character
separator. -/
def splitOnChar (sep : Char) : Str → List Str
  | [] => [[]]
  | c :: cs =>
    if c == sep then [] :: splitOnChar sep cs
    else
      match splitOnChar sep cs with
      | [] => [[c]]
      | p :: ps => (c :: p) :: ps

/-- Matches exactly `n` identifier-class characters at the head of a
string, as the regex piece `[A-Za-z0-9_-]{n}` does at a fixed position;
`none` when fewer than `n` such characters begin the string. -/
def takeIdChars : Nat → Str → Option Str
  | 0, _ => some []
  | _ + 1, [] => none
  | n + 1, c :: cs =>
    if isIdChar c then (takeIdChars n cs).map (fun r => c :: r) else none

/-- Model of JavaScript `Math.min` on two numbers. -/
def qmin (a b : ℚ) : ℚ := if a ≤ b then a else b

/-- Characters allowed in a URL scheme after its first letter. -/
def isSchemeChar (c : Char) : Bool :=
  c.isAlphanum || c == '+' || c == '-' || c == '.'

/-- The components of a parsed URL that the extractor reads. -/
structure JsURL where
  scheme : Str
  hostname : Str
  pathname : Str
  search : Str
deriving DecidableEq

/-- Model of the WHATWG `new URL(input)` constructor, restricted to the
hierarchical `scheme://host/path?query#fragment` shape: the scheme must
start with a letter and be followed by `://` and a non-empty authority;
userinfo/port splitting, host lowercasing and percent decoding are not
modelled (the inputs reasoned about contain none of those). A failed
parse models the thrown `TypeError`. -/
def parseURL (s : Str) : Option JsURL :=
  match s.head? with
  | none => none
  | some c =>
    if !c.isAlpha then none
    else
      let scheme := takeUntil (fun x => x == ':') s
      if !scheme.all isSchemeChar then none
      else
        let rest := dropUntil (fun x => x == ':') s
        if rest.isEmpty then none
        else
          let r1 := rest.drop 1
          if (chars "//").isPrefixOf r1 then
            let r := r1.drop 2
            let authority :=
              takeUntil (fun x => x == '/' || x == '?' || x == '#') r
            if authority.isEmpty then none
            else
              let r2 := dropUntil (fun x => x == '/' || x == '?' || x == '#') r
              let pathname :=
                match r2.head? with
                | some c3 =>
                  if c3 == '/' then takeUntil (fun x => x == '?' || x == '#') r2
                  else ['/']
                | none => ['/']
              let r3 := dropUntil (fun x => x == '?' || x == '#') r2
              let search :=
                match r3.head? with
                | some c4 =>
                  if c4 == '?' then takeUntil (fun x => x == '#') (r3.drop 1)
                  else []
                | none => []
              some ⟨scheme, authority, pathname, search⟩
          else none

/-- Name part of one `name=value` pair of a query string. -/
def paramName (p : Str) : Str := takeUntil (fun c => c == '=') p

/-- Value part of one `name=value` pair of a query string (empty when
the pair has no `=`). -/
def paramValue (p : Str) : Str :=
  match dropUntil (fun c => c == '=') p with
  | _ :: v => v
  | [] => []

/-- Model of `url.searchParams.get(name)`: first `name=value` pair of
the query string, empty pairs skipped; percent decoding is not modelled
(the values reasoned about need none). -/
def getParam (nm : Str) (search : Str) : Option Str :=
  ((splitOnChar '&' search).filter (fun p => !p.isEmpty)).findSome?
    (fun p => if paramName p == nm then some (paramValue p) else none)

/-- One alternative of the path regex
`/\/(embed|shorts|v)\/([A-Za-z0-9_-]{11})/` at a fixed position: the
keyword (with its trailing slash) followed by exactly 11 identifier
characters. -/
def tryKeyword (kw : Str) (s : Str) : Option Str :=
  if kw.isPrefixOf s then takeIdChars 11 (s.drop kw.length) else none

/-- Left-to-right scan of `url.pathname.match(/\/(embed|shorts|v)\/([A-Za-z0-9_-]{11})/)`,
returning the first capture group of the leftmost match. -/
def matchVideoPath : Str → Option Str
  | [] => none
  | c :: rest =>
    if c == '/' then
      match tryKeyword (chars "embed/") rest with
      | some id => some id
      | none =>
        match tryKeyword (chars "shorts/") rest with
        | some id => some id
        | none =>
          match tryKeyword (chars "v/") rest with
          | some id => some id
          | none => matchVideoPath rest
    else matchVideoPath rest

/-- The `v=([A-Za-z0-9_-]{11})` piece of the fallback regex at a fixed
position: the literal `v=` followed by exactly 11 identifier
characters. -/
def tryVEq (s : Str) : Option Str :=
  match s with
  | c1 :: c2 :: r => if c1 == 'v' && c2 == '=' then takeIdChars 11 r else none
  | _ => none

/-- Left-to-right scan of `input.match(/[?&]v=([A-Za-z0-9_-]{11})/)`,
returning the first capture group of the leftmost match. -/
def matchVParam : Str → Option Str
  | [] => none
  | c :: rest =>
    if c == '?' || c == '&' then
      match tryVEq rest with
      | some id => some id
      | none => matchVParam rest
    else matchVParam rest

/-- The `youtu.be` branch of `extractVideoId`: first path segment
(`url.pathname.slice(1).split('/')[0]`), validated. -/
def shortLinkId (url : JsURL) : Option Str :=
  if url.hostname == chars "youtu.be" then
    let id := takeUntil (fun c => c == '/') (url.pathname.drop 1)
    if !id.isEmpty && isCanonicalId id then some id else none
  else none

/-- The `watch?v=` branch of `extractVideoId`:
`url.searchParams.get('v')`, validated. -/
def queryId (url : JsURL) : Option Str :=
  match getParam (chars "v") url.search with
  | some v => if !v.isEmpty && isCanonicalId v then some v else none
  | none => none

/-- Embedding of `extractVideoId` (the Identifier Resolver). -/
def extractVideoId (input : Str) : Option Str :=
  if input.isEmpty then none
  else if isCanonicalId (jsTrim input) then some (jsTrim input)
  else
    match parseURL input with
    | some url =>
      match shortLinkId url with
      | some id => some id
      | none =>
        match queryId url with
        | some id => some id
        | none => matchVideoPath url.pathname
    | none => matchVParam input

/-- Embedding of the `InnertubeFormat` raw stream format descriptor. -/
structure InnertubeFormat where
  itag : Int
  url : Option Str := none
  signatureCipher : Option Str := none
  mimeType : Str := []
  bitrate : Option ℚ := none
  width : Option ℚ := none
  height : Option ℚ := none
  quality : Str := []
  qualityLabel : Option Str := none
  audioQuality : Option Str := none
  audioSampleRate : Option Str := none
  audioChannels : Option ℚ := none
deriving DecidableEq

/-- Container/codec split of a MIME type produced by `parseMimeType`. -/
structure MimeParts where
  container : Str
  codecs : Str
deriving DecidableEq

/-- Case-insensitive character comparison. -/
def ciChar (a b : Char) : Bool := a.toLower == b.toLower

/-- Case-insensitive prefix test. -/
def ciPrefixOf : Str → Str → Bool
  | [], _ => true
  | _ :: _, [] => false
  | k :: ks, c :: cs => ciChar k c && ciPrefixOf ks cs

/-- Model of `.replace(/codecs=["']?/i, '')`: removes the first
case-insensitive occurrence of `codecs=` together with one directly
following quote character, if any. -/
def removeFirstCodecs : Str → Str
  | [] => []
  | c :: cs =>
    if ciPrefixOf (chars "codecs=") (c :: cs) then
      match (c :: cs).drop 7 with
      | q :: r2 => if q == '"' || q == '\'' then r2 else q :: r2
      | [] => []
    else c :: removeFirstCodecs cs

/-- Model of `.replace(/["']$/, '')`: removes one trailing quote. -/
def stripTrailingQuote (s : Str) : Str :=
  match s.getLast? with
  | some c => if c == '"' || c == '\'' then s.dropLast else s
  | none => []

/-- Embedding of `parseMimeType`. -/
def parseMimeType (mimeType : Str) : MimeParts :=
  let parts := splitOnChar ';' mimeType
  let base := parts.headD []
  let container := jsTrim base
  let codecs :=
    match (parts.drop 1).head? with
    | some codecsPart =>
      if codecsPart.isEmpty then []
      else jsTrim (stripTrailingQuote (removeFirstCodecs codecsPart))
    | none => []
  ⟨container, codecs⟩

/-- Embedding of `isMuxedFormat`. -/
def isMuxedFormat (format : InnertubeFormat) : Bool :=
  (parseMimeType format.mimeType).codecs.contains ',' ||
    (optTruthy format.audioQuality && optTruthy format.qualityLabel)

/-- Embedding of `isVideoMp4`. -/
def isVideoMp4 (format : InnertubeFormat) : Bool :=
  (chars "video/mp4").isPrefixOf format.mimeType

/-- Embedding of `formatQualityLabel`
(`format.qualityLabel || format.quality || 'unknown'`). -/
def formatQualityLabel (format : InnertubeFormat) : Str :=
  jsOr (format.qualityLabel.getD []) (jsOr format.quality (chars "unknown"))

/-- The preferred muxed itag list `PREFERRED_MUXED_ITAGS`. -/
def PREFERRED_MUXED_ITAGS : List Int := [22, 59, 78, 135, 134]

/-- Model of JavaScript `Array.prototype.indexOf`: 0-based index of the
first occurrence, `-1` when absent. -/
def jsIndexOf : List Int → Int → Int
  | [], _ => -1
  | y :: ys, x =>
    if y == x then 0
    else
      let r := jsIndexOf ys x
      if r == -1 then -1 else r + 1

/-- Embedding of `scoreFormat` (the Stream Scorer). -/
def scoreFormat (format : InnertubeFormat) : ℚ :=
  let preferredIndex := jsIndexOf PREFERRED_MUXED_ITAGS format.itag
  let itagBonus : ℚ :=
    if preferredIndex != -1 then
      ((PREFERRED_MUXED_ITAGS.length : ℚ) - (preferredIndex : ℚ)) * 10000
    else 0
  let height := format.height.getD 0
  let heightScore := qmin height 720 * 10
  let bitrateScore := qmin (format.bitrate.getD 0) 3000000 / 1000
  itagBonus + heightScore + bitrateScore

/-- The externally consumed `ExtractedStream` representation. -/
structure ExtractedStream where
  url : Str
  quality : Str
  mimeType : Str
  itag : Int
  hasAudio : Bool
  hasVideo : Bool
  bitrate : ℚ
deriving DecidableEq

/-- Derivation of an `ExtractedStream` from a raw format, exactly the
object literal built both in `pickBestStream` and in `extract`. -/
def mkExtractedStream (format : InnertubeFormat) : ExtractedStream :=
  { url := format.url.getD []
  , quality := formatQualityLabel format
  , mimeType := format.mimeType
  , itag := format.itag
  , hasAudio := optTruthy format.audioQuality || isMuxedFormat format
  , hasVideo := optTruthy format.qualityLabel || (chars "video/").isPrefixOf format.mimeType
  , bitrate := format.bitrate.getD 0 }

/-- Stable insertion (new element goes after equal scores), the step of
the stable descending sort. -/
def insertByScoreDesc (x : InnertubeFormat) :
    List InnertubeFormat → List InnertubeFormat
  | [] => [x]
  | y :: ys =>
    if scoreFormat y < scoreFormat x then x :: y :: ys
    else y :: insertByScoreDesc x ys

/-- Model of `[...pool].sort((a, b) => scoreFormat(b) - scoreFormat(a))`:
stable sort by descending score. -/
def sortByScoreDesc (l : List InnertubeFormat) : List InnertubeFormat :=
  l.foldl (fun acc x => insertByScoreDesc x acc) []

/-- Embedding of `pickBestStream`. -/
def pickBestStream (formats : List InnertubeFormat) : Option ExtractedStream :=
  if formats.isEmpty then none
  else
    let mp4Formats := formats.filter isVideoMp4
    let pool := if 0 < mp4Formats.length then mp4Formats else formats
    match sortByScoreDesc pool with
    | [] => none
    | best :: _ => some (mkExtractedStream best)

/-- The `streamingData` member of a player response. The TypeScript
interface declares the two arrays as required, but the code guards both
reads with `?? []`, so they are modelled as optional. -/
structure InnertubeStreamingData where
  formats : Option (List InnertubeFormat) := none
  adaptiveFormats : Option (List InnertubeFormat) := none
  expiresInSeconds : Option Str := none
deriving DecidableEq

/-- The `videoDetails` member of a player response. -/
structure VideoDetails where
  videoId : Str
  title : Str
  lengthSeconds : Str
  isLive : Option Bool := none
  isLiveDvr : Option Bool := none
deriving DecidableEq

/-- The `playabilityStatus` member of a player response. -/
structure PlayabilityStatus where
  status : Str
  reason : Option Str := none
deriving DecidableEq

/-- Embedding of `InnertubePlayerResponse`. -/
structure InnertubePlayerResponse where
  streamingData : Option InnertubeStreamingData := none
  videoDetails : Option VideoDetails := none
  playabilityStatus : Option PlayabilityStatus := none
deriving DecidableEq

/-- The retained-format collector for one format array: the loop
`for (const f of arr) if (f.url) formats.push(f)`. -/
def collectDirect : List InnertubeFormat → List InnertubeFormat
  | [] => []
  | f :: fs => if optTruthy f.url then f :: collectDirect fs else collectDirect fs

/-- The retained-format collector for the adaptive array: the loop
`for (const f of arr) if (f.url && isMuxedFormat(f)) formats.push(f)`. -/
def collectDirectMuxed : List InnertubeFormat → List InnertubeFormat
  | [] => []
  | f :: fs =>
    if optTruthy f.url && isMuxedFormat f then f :: collectDirectMuxed fs
    else collectDirectMuxed fs

/-- Embedding of `parseFormats`. -/
def parseFormats (playerResponse : InnertubePlayerResponse) : List InnertubeFormat :=
  match playerResponse.streamingData with
  | none => []
  | some sd =>
    collectDirect (sd.formats.getD []) ++ collectDirectMuxed (sd.adaptiveFormats.getD [])

/-- Embedding of `YouTubeExtractionResult`. -/
structure YouTubeExtractionResult where
  streams : List ExtractedStream
  bestStream : Option ExtractedStream
  videoId : Str
  title : Option Str := none
  durationSeconds : Option Int := none
deriving DecidableEq

/-- The three emulated client profiles, in the fixed priority order of
the `clients` array in `extract`. -/
inductive ClientName
  | ANDROID
  | IOS
  | TVHTML5_EMBEDDED
deriving DecidableEq

/-- The ordered client list of `extract`. -/
def clients : List ClientName :=
  [ClientName.ANDROID, ClientName.IOS, ClientName.TVHTML5_EMBEDDED]

/-- The playability gate of the orchestrator loop:
`status === 'UNPLAYABLE' || status === 'LOGIN_REQUIRED'`. -/
def badPlayability (resp : InnertubePlayerResponse) : Bool :=
  match resp.playabilityStatus with
  | none => false
  | some ps => ps.status == chars "UNPLAYABLE" || ps.status == chars "LOGIN_REQUIRED"

/-- The orchestrator loop of `extract` over the client list: skip a
profile on fetch failure, on a bad playability status, or on an empty
retained-format set; stop at the first profile yielding formats. -/
def tryClients (fetchResult : ClientName → Option InnertubePlayerResponse) :
    List ClientName → Option (List InnertubeFormat × InnertubePlayerResponse)
  | [] => none
  | c :: rest =>
    match fetchResult c with
    | none => tryClients fetchResult rest
    | some resp =>
      if badPlayability resp then tryClients fetchResult rest
      else
        let formats := parseFormats resp
        if 0 < formats.length then some (formats, resp)
        else tryClients fetchResult rest

/-- Value of the decimal digit characters of a string. -/
def digitsToNat (s : Str) : Nat :=
  s.foldl (fun acc c => acc * 10 + (c.toNat - '0'.toNat)) 0

/-- Model of the JavaScript `parseInt(s, 10)` builtin: optional
whitespace, optional sign, then the longest digit prefix; the `NaN`
result (no digits) is modelled as `none`. -/
def jsParseIntDec (s : Str) : Option Int :=
  let t := s.dropWhile jsWhitespace
  let signed : Bool × Str :=
    match t with
    | c :: r => if c == '-' then (true, r) else if c == '+' then (false, r) else (false, t)
    | [] => (false, [])
  let ds := signed.2.takeWhile Char.isDigit
  if ds.isEmpty then none
  else if signed.1 then some (-(digitsToNat ds : Int)) else some (digitsToNat ds)

/-- Embedding of `YouTubeExtractor.extract`, with the network modelled
as an oracle from client profile to the optional player response that
`fetchPlayerResponse` would return for it. -/
def extract (videoIdOrUrl : Str)
    (fetchResult : ClientName → Option InnertubePlayerResponse) :
    Option YouTubeExtractionResult :=
  match extractVideoId videoIdOrUrl with
  | none => none
  | some videoId =>
    match tryClients fetchResult clients with
    | none => none
    | some (bestFormats, playerResponse) =>
      let streams := bestFormats.map mkExtractedStream
      let bestStream := pickBestStream bestFormats
      let details := playerResponse.videoDetails
      some
        { streams := streams
        , bestStream := bestStream
        , videoId := videoId
        , title := details.map (fun d => d.title)
        , durationSeconds :=
            match details with
            | none => none
            | some d =>
              if d.lengthSeconds.isEmpty then none else jsParseIntDec d.lengthSeconds }

/-- Embedding of `YouTubeExtractor.getBestStreamUrl`. -/
def getBestStreamUrl (videoIdOrUrl : Str)
    (fetchResult : ClientName → Option InnertubePlayerResponse) : Option Str :=
  (extract videoIdOrUrl fetchResult).bind (fun r => r.bestStream.map (fun s => s.url))

/-- Embedding of `YouTubeExtractor.parseVideoId`. -/
def parseVideoId (input : Str) : Option Str := extractVideoId input

/-! Spec-side definitions, used to state claims in the specification's
own vocabulary and compared against the code-side definitions above. -/

/-- The 0-based position of the first occurrence of `x` in a list
(spec-side formulation of "appears at position p"). -/
def listPos (x : Int) : List Int → Option Nat
  | [] => none
  | y :: ys => if y == x then some 0 else (listPos x ys).map Nat.succ

/-- The retained-format yield of one profile attempt (spec-side): empty
on a fetch failure and on a gating playability status, otherwise the
retained formats of the response. -/
def profileYield (fetchResult : ClientName → Option InnertubePlayerResponse)
    (c : ClientName) : List InnertubeFormat :=
  match fetchResult c with
  | none => []
  | some resp => if badPlayability resp then [] else parseFormats resp

/-- Running maximum with strict replacement: the earliest maximum-score
element of `b :: l` (spec-side formulation of the selection rule). -/
def runBest (b : InnertubeFormat) (l : List InnertubeFormat) : InnertubeFormat :=
  l.foldl (fun b x => if scoreFormat b < scoreFormat x then x else b) b

/-! Concrete inputs used by counterexamples and witnesses. -/

/-- A preference-list format (itag 134, last position) with no height
and no bitrate. -/
def fmtPrefLast : InnertubeFormat := { itag := 134 }

/-- A top-preference format (itag 22). -/
def fmtPrefTop : InnertubeFormat := { itag := 22 }

/-- An out-of-list format with maximal capped height and bitrate. -/
def fmtRichOut : InnertubeFormat :=
  { itag := 18, height := some 720, bitrate := some 3000000 }

/-- A format whose MIME type begins with `video/mp4` although its
container is not `video/mp4`. -/
def fmtMp4x : InnertubeFormat :=
  { itag := 1, url := some (chars "http://a"), mimeType := chars "video/mp4x"
  , height := some 100 }

/-- A high-scoring WebM format. -/
def fmtWebmBig : InnertubeFormat :=
  { itag := 2, url := some (chars "http://b"), mimeType := chars "video/webm"
  , height := some 700 }

/-- A muxed MP4 format with a direct URL, used by orchestrator
witnesses. -/
def wFormat : InnertubeFormat :=
  { itag := 22, url := some (chars "https://cdn.example/v.mp4")
  , mimeType := chars "video/mp4", bitrate := some 800000
  , height := some 720, qualityLabel := some (chars "720p")
  , audioQuality := some (chars "AUDIO_QUALITY_MEDIUM") }

/-- A player response whose muxed collection holds `wFormat`. -/
def wResponse : InnertubePlayerResponse :=
  { streamingData := some { formats := some [wFormat], adaptiveFormats := some [] } }

/-- An oracle: the ANDROID profile succeeds with `wResponse`, the other
profiles fail to fetch. -/
def wOracle : ClientName → Option InnertubePlayerResponse :=
  fun c =>
    match c with
    | ClientName.ANDROID => some wResponse
    | _ => none

/-- The result `extract` produces for `wOracle`. -/
def wResult : YouTubeExtractionResult :=
  { streams := [mkExtractedStream wFormat]
  , bestStream := some (mkExtractedStream wFormat)
  , videoId := chars "dQw4w9WgXcQ" }

/-- A WebM-only format used by the second orchestrator witness. -/
def wFormat2 : InnertubeFormat :=
  { itag := 43, url := some (chars "https://cdn.example/v.webm")
  , mimeType := chars "video/webm", bitrate := some 500000
  , height := some 360, qualityLabel := some (chars "360p")
  , audioQuality := some (chars "AUDIO_QUALITY_LOW") }

/-- A player response whose muxed collection holds `wFormat2`. -/
def wResponse2 : InnertubePlayerResponse :=
  { streamingData := some { formats := some [wFormat2], adaptiveFormats := some [] } }

/-- An oracle: ANDROID fails to fetch, IOS is gated by LOGIN_REQUIRED,
TVHTML5 succeeds with `wResponse2`. -/
def wOracle2 : ClientName → Option InnertubePlayerResponse :=
  fun c =>
    match c with
    | ClientName.ANDROID => none
    | ClientName.IOS =>
      some { playabilityStatus := some { status := chars "LOGIN_REQUIRED" } }
    | ClientName.TVHTML5_EMBEDDED => some wResponse2

/-- The result `extract` produces for `wOracle2`. -/
def wResult2 : YouTubeExtractionResult :=
  { streams := [mkExtractedStream wFormat2]
  , bestStream := some (mkExtractedStream wFormat2)
  , videoId := chars "jNQXAC9IVRw" }

/-! ## Lemmas about the Stream Scorer -/

theorem qmin_eq_min (a b : ℚ) : qmin a b = min a b := (min_def a b).symm

theorem qmin_le_right (a b : ℚ) : qmin a b ≤ b := by
  rw [qmin_eq_min]; exact min_le_right a b

theorem qmin_nonneg {a b : ℚ} (ha : 0 ≤ a) (hb : 0 ≤ b) : 0 ≤ qmin a b := by
  rw [qmin_eq_min]; exact le_min ha hb

theorem jsIndexOf_eq_neg_one {l : List Int} {x : Int} (h : x ∉ l) :
    jsIndexOf l x = -1 := by
  induction l with
  | nil => rfl
  | cons y ys ih =>
    have hy : (y == x) = false :=
      beq_eq_false_iff_ne.mpr (fun e => h (e ▸ List.mem_cons_self y ys))
    have hys : x ∉ ys := fun hm => h (List.mem_cons_of_mem _ hm)
    simp [jsIndexOf, hy, ih hys]

theorem scoreFormat_def (f : InnertubeFormat) :
    scoreFormat f =
      (if jsIndexOf PREFERRED_MUXED_ITAGS f.itag != -1 then
        ((PREFERRED_MUXED_ITAGS.length : ℚ) -
          (jsIndexOf PREFERRED_MUXED_ITAGS f.itag : ℚ)) * 10000
      else 0)
      + qmin (f.height.getD 0) 720 * 10
      + qmin (f.bitrate.getD 0) 3000000 / 1000 := rfl

theorem scoreFormat_out {g : InnertubeFormat}
    (hg : g.itag ∉ PREFERRED_MUXED_ITAGS) :
    scoreFormat g =
      qmin (g.height.getD 0) 720 * 10 + qmin (g.bitrate.getD 0) 3000000 / 1000 := by
  rw [scoreFormat_def, jsIndexOf_eq_neg_one hg]
  norm_num

theorem scoreFormat_out_le {g : InnertubeFormat}
    (hg : g.itag ∉ PREFERRED_MUXED_ITAGS) : scoreFormat g ≤ 10200 := by
  rw [scoreFormat_out hg]
  have h1 := qmin_le_right (g.height.getD 0) 720
  have h2 := qmin_le_right (g.bitrate.getD 0) 3000000
  linarith

theorem score_eval_PrefLast : scoreFormat fmtPrefLast = 10000 := by
  rw [scoreFormat_def]
  rw [show jsIndexOf PREFERRED_MUXED_ITAGS fmtPrefLast.itag = 4 from by decide]
  rw [show fmtPrefLast.height = none from rfl, show fmtPrefLast.bitrate = none from rfl]
  rw [qmin_eq_min, qmin_eq_min]
  norm_num [PREFERRED_MUXED_ITAGS]

theorem score_eval_RichOut : scoreFormat fmtRichOut = 10200 := by
  rw [scoreFormat_def]
  rw [show jsIndexOf PREFERRED_MUXED_ITAGS fmtRichOut.itag = -1 from by decide]
  rw [show fmtRichOut.height = some 720 from rfl,
    show fmtRichOut.bitrate = some 3000000 from rfl]
  rw [qmin_eq_min, qmin_eq_min]
  norm_num

theorem take4_eval : PREFERRED_MUXED_ITAGS.take 4 = [22, 59, 78, 135] := by decide

theorem scoreFormat_first_four_ge {f : InnertubeFormat}
    (hf : f.itag ∈ PREFERRED_MUXED_ITAGS.take 4)
    (h0 : 0 ≤ f.height.getD 0) (h1 : 0 ≤ f.bitrate.getD 0) :
    20000 ≤ scoreFormat f := by
  have hq1 : 0 ≤ qmin (f.height.getD 0) 720 := qmin_nonneg h0 (by norm_num)
  have hq2 : 0 ≤ qmin (f.bitrate.getD 0) 3000000 := qmin_nonneg h1 (by norm_num)
  rw [take4_eval] at hf
  rw [scoreFormat_def]
  simp only [List.mem_cons, List.not_mem_nil, or_false] at hf
  rcases hf with h | h | h | h
  · rw [h, show jsIndexOf PREFERRED_MUXED_ITAGS 22 = 0 from by decide]
    norm_num [PREFERRED_MUXED_ITAGS]
    linarith
  · rw [h, show jsIndexOf PREFERRED_MUXED_ITAGS 59 = 1 from by decide]
    norm_num [PREFERRED_MUXED_ITAGS]
    linarith
  · rw [h, show jsIndexOf PREFERRED_MUXED_ITAGS 78 = 2 from by decide]
    norm_num [PREFERRED_MUXED_ITAGS]
    linarith
  · rw [h, show jsIndexOf PREFERRED_MUXED_ITAGS 135 = 3 from by decide]
    norm_num [PREFERRED_MUXED_ITAGS]
    linarith

theorem listPos_lt_length {x : Int} {l : List Int} {p : Nat}
    (h : listPos x l = some p) : p < l.length := by
  induction l generalizing p with
  | nil => simp [listPos] at h
  | cons y ys ih =>
    by_cases hy : (y == x) = true
    · simp [listPos, hy] at h
      simp [← h]
    · rw [listPos, if_neg hy] at h
      cases hq : listPos x ys with
      | none => rw [hq] at h; simp at h
      | some q =>
        rw [hq] at h
        have hp : q + 1 = p := by simpa using h
        have := ih hq
        simp only [List.length_cons]
        omega

theorem jsIndexOf_eq_listPos (l : List Int) (x : Int) :
    jsIndexOf l x = (match listPos x l with
      | some p => (p : Int)
      | none => -1) := by
  induction l with
  | nil => rfl
  | cons y ys ih =>
    by_cases hy : (y == x) = true
    · simp [jsIndexOf, listPos, hy]
    · rw [jsIndexOf, if_neg hy, listPos, if_neg hy, ih]
      cases h : listPos x ys with
      | none => simp
      | some p =>
        have hne : ((p : Int) == -1) = false := by
          refine beq_eq_false_iff_ne.mpr ?_
          omega
        simp [hne]

/-! ## Claims C1, C3, C4 (Stream Scorer) -/

/-- Claim C1 as stated is false: the preference bonus does not dominate
the other terms. The last preference-list itag (134) earns the bonus
`(5 − 4) × 10000 = 10000`, while an out-of-list format with capped
height 720 and capped bitrate 3000000 scores `7200 + 3000 = 10200`, so
the in-list format scores strictly lower. -/
theorem preference_bonus_not_dominant :
    fmtPrefLast.itag ∈ PREFERRED_MUXED_ITAGS ∧
    fmtRichOut.itag ∉ PREFERRED_MUXED_ITAGS ∧
    scoreFormat fmtPrefLast < scoreFormat fmtRichOut := by
  refine ⟨by decide, by decide, ?_⟩
  rw [score_eval_PrefLast, score_eval_RichOut]
  norm_num

/-- Claim C1, amended: for every format whose itag is among the first
four entries of the preference list (bonus at least 20000) and whose
height and bitrate are nonnegative, the Stream Scorer assigns a
strictly higher score than to any format whose itag is not in the list,
regardless of the heights and bitrates involved; only the last
preference entry (bonus 10000) can be overtaken. -/
theorem preference_first_four_dominate (f g : InnertubeFormat)
    (hf : f.itag ∈ PREFERRED_MUXED_ITAGS.take 4)
    (hg : g.itag ∉ PREFERRED_MUXED_ITAGS)
    (h0 : 0 ≤ f.height.getD 0) (h1 : 0 ≤ f.bitrate.getD 0) :
    scoreFormat g < scoreFormat f := by
  have ha := scoreFormat_first_four_ge hf h0 h1
  have hb := scoreFormat_out_le hg
  linarith

/-- Witness for the amended claim C1, at itag 22 against a maximal
out-of-list format. -/
theorem preference_first_four_dominate_witness :
    scoreFormat fmtRichOut < scoreFormat fmtPrefTop :=
  preference_first_four_dominate fmtPrefTop fmtRichOut
    (by decide) (by decide) (by decide) (by decide)

/-- Claim C4: the score is exactly the sum of the preference bonus
`(L − p) × 10000` (0 when the itag is not in the list), the capped
resolution term `min(height, 720) × 10` with absent height read as 0,
and the capped bitrate term `min(bitrate, 3000000) / 1000` with absent
bitrate read as 0. -/
theorem scoreFormat_three_terms (f : InnertubeFormat) :
    scoreFormat f =
      (match listPos f.itag PREFERRED_MUXED_ITAGS with
        | some p => ((PREFERRED_MUXED_ITAGS.length - p : ℕ) : ℚ) * 10000
        | none => 0)
      + min (f.height.getD 0) 720 * 10
      + min (f.bitrate.getD 0) 3000000 / 1000 := by
  rw [scoreFormat_def, jsIndexOf_eq_listPos, ← qmin_eq_min, ← qmin_eq_min]
  cases h : listPos f.itag PREFERRED_MUXED_ITAGS with
  | none => norm_num
  | some p =>
    have hp : p < PREFERRED_MUXED_ITAGS.length := listPos_lt_length h
    have hne : ((p : Int) != -1) = true := by
      refine bne_iff_ne.mpr ?_
      omega
    simp only [hne, if_true]
    have hcast : ((PREFERRED_MUXED_ITAGS.length - p : ℕ) : ℚ) =
        (PREFERRED_MUXED_ITAGS.length : ℚ) - (p : ℚ) := by
      push_cast [Nat.cast_sub hp.le]
      ring
    rw [hcast]
    norm_num

theorem splitOnChar_ne_nil (sep : Char) (l : Str) : splitOnChar sep l ≠ [] := by
  induction l with
  | nil => simp [splitOnChar]
  | cons c cs ih =>
    by_cases h : (c == sep) = true
    · simp [splitOnChar, h]
    · rw [splitOnChar, if_neg h]
      cases hs : splitOnChar sep cs with
      | nil => simp
      | cons p ps => simp

theorem one_lt_splitOnChar_length_iff (sep : Char) (l : Str) :
    1 < (splitOnChar sep l).length ↔ sep ∈ l := by
  induction l with
  | nil => simp [splitOnChar]
  | cons c cs ih =>
    by_cases h : (c == sep) = true
    · have heq : c = sep := by simpa using h
      have hne := splitOnChar_ne_nil sep cs
      have hlen : 1 ≤ (splitOnChar sep cs).length := by
        cases hs : splitOnChar sep cs with
        | nil => exact absurd hs hne
        | cons p ps => simp
      constructor
      · intro _
        exact heq ▸ List.mem_cons_self c cs
      · intro _
        simp only [splitOnChar, h, if_true, List.length_cons]
        omega
    · have hne : c ≠ sep := by simpa using h
      rw [splitOnChar, if_neg h]
      cases hs : splitOnChar sep cs with
      | nil => exact absurd hs (splitOnChar_ne_nil sep cs)
      | cons p ps =>
        rw [hs] at ih
        simp only [List.length_cons] at ih ⊢
        rw [List.mem_cons]
        constructor
        · intro hl
          exact Or.inr (ih.mp hl)
        · intro hm
          rcases hm with he | hm
          · exact absurd he.symm hne
          · exact ih.mpr hm

theorem takeUntil_append_dropUntil (p : Char → Bool) (l : Str) :
    takeUntil p l ++ dropUntil p l = l := by
  induction l with
  | nil => rfl
  | cons c cs ih =>
    by_cases h : p c = true
    · simp [takeUntil, dropUntil, h]
    · simp [takeUntil, dropUntil, h, ih]

theorem takeUntil_all_fail (p : Char → Bool) (l : Str) :
    ∀ c ∈ takeUntil p l, p c = false := by
  induction l with
  | nil => simp [takeUntil]
  | cons c cs ih =>
    by_cases h : p c = true
    · simp [takeUntil, h]
    · simp only [takeUntil, h, if_false]
      intro d hd
      rcases List.mem_cons.mp hd with he | hm
      · rw [he]; simpa using h
      · exact ih d hm

theorem dropUntil_head (p : Char → Bool) (l : Str) {c : Char} {r : Str}
    (h : dropUntil p l = c :: r) : p c = true := by
  induction l with
  | nil => simp [dropUntil] at h
  | cons d ds ih =>
    by_cases hd : p d = true
    · rw [dropUntil, if_pos hd] at h
      cases h
      exact hd
    · rw [dropUntil, if_neg hd] at h
      exact ih h

theorem prefix_video_slash_iff (m : Str) :
    (chars "video/").isPrefixOf m = true ↔
      (takeUntil (fun c => c == '/') m = chars "video" ∧ '/' ∈ m) := by
  constructor
  · intro h
    obtain ⟨t, ht⟩ := List.isPrefixOf_iff_prefix.mp h
    subst ht
    rw [show chars "video/" = ['v', 'i', 'd', 'e', 'o', '/'] from by decide]
    refine ⟨?_, by simp⟩
    simp only [List.cons_append, takeUntil]
    norm_num
    decide
  · rintro ⟨ht, hm⟩
    have hsplit := takeUntil_append_dropUntil (fun c => c == '/') m
    have hdrop : '/' ∈ dropUntil (fun c => c == '/') m := by
      rcases List.mem_append.mp (hsplit ▸ hm) with hin | hin
      · have := takeUntil_all_fail (fun c => c == '/') m '/' hin
        simp at this
      · exact hin
    cases hd : dropUntil (fun c => c == '/') m with
    | nil => rw [hd] at hdrop; simp at hdrop
    | cons c r =>
      have hc : (c == '/') = true := dropUntil_head (fun c => c == '/') m hd
      have hceq : c = '/' := by simpa using hc
      refine List.isPrefixOf_iff_prefix.mpr ?_
      refine ⟨r, ?_⟩
      rw [show chars "video/" = chars "video" ++ ['/'] from by decide]
      rw [List.append_assoc]
      rw [← ht]
      have hdr : (['/'] ++ r : Str) = dropUntil (fun c => c == '/') m := by
        rw [hd, hceq]
        rfl
      rw [hdr]
      exact hsplit



/-- Claim C6. -/
theorem classifier_spec (f : InnertubeFormat) :
    (isMuxedFormat f = true ↔
      1 < (splitOnChar ',' (parseMimeType f.mimeType).codecs).length ∨
      (optTruthy f.audioQuality = true ∧ optTruthy f.qualityLabel = true)) ∧
    ((mkExtractedStream f).hasAudio = true ↔
      optTruthy f.audioQuality = true ∨ isMuxedFormat f = true) ∧
    ((mkExtractedStream f).hasVideo = true ↔
      optTruthy f.qualityLabel = true ∨
      (takeUntil (fun c => c == '/') f.mimeType = chars "video" ∧
        '/' ∈ f.mimeType)) := by
  refine ⟨?_, ?_, ?_⟩
  · rw [one_lt_splitOnChar_length_iff]
    rw [show isMuxedFormat f =
      ((parseMimeType f.mimeType).codecs.contains ',' ||
        (optTruthy f.audioQuality && optTruthy f.qualityLabel)) from rfl]
    simp [List.contains, List.elem_iff, Bool.or_eq_true, Bool.and_eq_true]
  · rw [show (mkExtractedStream f).hasAudio =
      (optTruthy f.audioQuality || isMuxedFormat f) from rfl]
    simp
  · rw [show (mkExtractedStream f).hasVideo =
      (optTruthy f.qualityLabel || (chars "video/").isPrefixOf f.mimeType) from rfl]
    rw [← prefix_video_slash_iff]
    simp


theorem insertByScoreDesc_head (x y : InnertubeFormat) (ys : List InnertubeFormat) :
    (insertByScoreDesc x (y :: ys)).head? =
      some (if scoreFormat y < scoreFormat x then x else y) := by
  by_cases h : scoreFormat y < scoreFormat x <;> simp [insertByScoreDesc, h]

theorem foldl_ins_head (l : List InnertubeFormat) :
    ∀ (acc : List InnertubeFormat) (y : InnertubeFormat), acc.head? = some y →
      ((l.foldl (fun a x => insertByScoreDesc x a) acc).head? = some (runBest y l)) := by
  induction l with
  | nil =>
    intro acc y h
    simpa [runBest] using h
  | cons x xs ih =>
    intro acc y h
    cases acc with
    | nil => simp at h
    | cons a t =>
      have ha : a = y := by simpa using h
      subst ha
      rw [List.foldl_cons]
      have hstep := insertByScoreDesc_head x a t
      have := ih (insertByScoreDesc x (a :: t)) _ hstep
      rw [this]
      rfl

theorem sortByScoreDesc_cons_head (y : InnertubeFormat) (ys : List InnertubeFormat) :
    (sortByScoreDesc (y :: ys)).head? = some (runBest y ys) := by
  rw [sortByScoreDesc, List.foldl_cons]
  exact foldl_ins_head ys (insertByScoreDesc y []) y rfl

theorem runBest_le (l : List InnertubeFormat) :
    ∀ y : InnertubeFormat, scoreFormat y ≤ scoreFormat (runBest y l) := by
  induction l with
  | nil => intro y; simp [runBest]
  | cons x xs ih =>
    intro y
    rw [runBest, List.foldl_cons]
    by_cases h : scoreFormat y < scoreFormat x
    · simp only [if_pos h]
      exact le_of_lt (lt_of_lt_of_le h (ih x))
    · simp only [if_neg h]
      exact ih y

theorem runBest_cons (y x : InnertubeFormat) (xs : List InnertubeFormat) :
    runBest y (x :: xs) =
      if scoreFormat y < scoreFormat x then runBest x xs else runBest y xs := by
  rw [runBest, List.foldl_cons]
  by_cases h : scoreFormat y < scoreFormat x
  · rw [if_pos h, if_pos h]
    rfl
  · rw [if_neg h, if_neg h]
    rfl

theorem runBest_split (l : List InnertubeFormat) :
    ∀ y : InnertubeFormat, ∃ l1 l2,
      y :: l = l1 ++ runBest y l :: l2 ∧
      (∀ g ∈ l1, scoreFormat g < scoreFormat (runBest y l)) ∧
      (∀ g ∈ l2, scoreFormat g ≤ scoreFormat (runBest y l)) := by
  induction l with
  | nil =>
    intro y
    exact ⟨[], [], by simp [runBest], by simp, by simp⟩
  | cons x xs ih =>
    intro y
    rw [runBest_cons]
    by_cases h : scoreFormat y < scoreFormat x
    · rw [if_pos h]
      obtain ⟨l1, l2, heq, h1, h2⟩ := ih x
      refine ⟨y :: l1, l2, ?_, ?_, h2⟩
      · rw [List.cons_append, ← heq]
      · intro g hg
        rcases List.mem_cons.mp hg with he | hm
        · subst he
          exact lt_of_lt_of_le h (runBest_le xs x)
        · exact h1 g hm
    · rw [if_neg h]
      obtain ⟨l1, l2, heq, h1, h2⟩ := ih y
      cases l1 with
      | nil =>
        simp only [List.nil_append] at heq
        have h34 := heq
        rw [List.cons.injEq] at h34
        obtain ⟨hb, hl2⟩ := h34
        refine ⟨[], x :: xs, by simp [← hb], by simp, ?_⟩
        intro g hg
        rcases List.mem_cons.mp hg with he | hm
        · subst he
          rw [← hb]
          exact le_of_not_lt h
        · rw [hl2] at hm
          exact h2 g hm
      | cons z l1t =>
        have h34 := heq
        rw [List.cons_append, List.cons.injEq] at h34
        obtain ⟨hz, hxs⟩ := h34
        refine ⟨y :: x :: l1t, l2, ?_, ?_, h2⟩
        · rw [List.cons_append, List.cons_append, ← hxs]
        · have hy : scoreFormat y < scoreFormat (runBest y xs) := by
            have hzz := h1 z (List.mem_cons_self z l1t)
            rw [← hz] at hzz
            exact hzz
          intro g hg
          rcases List.mem_cons.mp hg with he | hm
          · subst he
            exact hy
          · rcases List.mem_cons.mp hm with he2 | hm2
            · subst he2
              exact lt_of_le_of_lt (le_of_not_lt h) hy
            · exact h1 g (List.mem_cons_of_mem z hm2)


theorem pickBestStream_spec (fs : List InnertubeFormat) (h : fs ≠ []) :
    ∃ b l1 l2,
      pickBestStream fs = some (mkExtractedStream b) ∧
      (if 0 < (fs.filter isVideoMp4).length then fs.filter isVideoMp4 else fs) =
        l1 ++ b :: l2 ∧
      (∀ g ∈ l1, scoreFormat g < scoreFormat b) ∧
      (∀ g ∈ l2, scoreFormat g ≤ scoreFormat b) := by
  have hpool : (if 0 < (fs.filter isVideoMp4).length then fs.filter isVideoMp4 else fs) ≠ [] := by
    by_cases hc : 0 < (fs.filter isVideoMp4).length
    · rw [if_pos hc]
      intro he
      rw [he] at hc
      simp at hc
    · rw [if_neg hc]
      exact h
  obtain ⟨y, ys, hys⟩ := List.exists_cons_of_ne_nil hpool
  have hhead : (sortByScoreDesc (y :: ys)).head? = some (runBest y ys) :=
    sortByScoreDesc_cons_head y ys
  obtain ⟨l1, l2, heq, h1, h2⟩ := runBest_split ys y
  refine ⟨runBest y ys, l1, l2, ?_, by rw [hys]; exact heq, h1, h2⟩
  rw [pickBestStream]
  rw [if_neg (by simpa [List.isEmpty_iff] using h)]
  simp only []
  rw [hys]
  cases hs : sortByScoreDesc (y :: ys) with
  | nil => rw [hs] at hhead; simp at hhead
  | cons b t =>
    rw [hs] at hhead
    have hb : b = runBest y ys := by simpa using hhead
    rw [hb]


/-- Claim C5 as stated is false. -/
theorem container_filter_not_container_equality :
    (parseMimeType fmtMp4x.mimeType).container ≠ chars "video/mp4" ∧
    (parseMimeType fmtWebmBig.mimeType).container ≠ chars "video/mp4" ∧
    scoreFormat fmtMp4x < scoreFormat fmtWebmBig ∧
    pickBestStream [fmtMp4x, fmtWebmBig] = some (mkExtractedStream fmtMp4x) ∧
    (mkExtractedStream fmtMp4x).itag ≠ (mkExtractedStream fmtWebmBig).itag := by
  refine ⟨by decide, by decide, ?_, by decide, by decide⟩
  have e1 : scoreFormat fmtMp4x = 1000 := by
    rw [scoreFormat_def]
    rw [show jsIndexOf PREFERRED_MUXED_ITAGS fmtMp4x.itag = -1 from by decide]
    rw [show fmtMp4x.height = some 100 from rfl, show fmtMp4x.bitrate = none from rfl]
    rw [qmin_eq_min, qmin_eq_min]
    norm_num
  have e2 : scoreFormat fmtWebmBig = 7000 := by
    rw [scoreFormat_def]
    rw [show jsIndexOf PREFERRED_MUXED_ITAGS fmtWebmBig.itag = -1 from by decide]
    rw [show fmtWebmBig.height = some 700 from rfl, show fmtWebmBig.bitrate = none from rfl]
    rw [qmin_eq_min, qmin_eq_min]
    norm_num
  rw [e1, e2]
  norm_num

/-- Claim C5, amended. -/
theorem pickBest_earliest_max (fs : List InnertubeFormat) (h : fs ≠ []) :
    ∃ b l1 l2,
      pickBestStream fs = some (mkExtractedStream b) ∧
      (if 0 < (fs.filter isVideoMp4).length then fs.filter isVideoMp4 else fs) =
        l1 ++ b :: l2 ∧
      (∀ g ∈ l1, scoreFormat g < scoreFormat b) ∧
      (∀ g ∈ l2, scoreFormat g ≤ scoreFormat b) :=
  pickBestStream_spec fs h

/-- Witness for the amended claim C5. -/
theorem pickBest_earliest_max_witness :
    ∃ b l1 l2,
      pickBestStream [fmtMp4x, fmtWebmBig] = some (mkExtractedStream b) ∧
      (if 0 < ([fmtMp4x, fmtWebmBig].filter isVideoMp4).length then
        [fmtMp4x, fmtWebmBig].filter isVideoMp4 else [fmtMp4x, fmtWebmBig]) =
        l1 ++ b :: l2 ∧
      (∀ g ∈ l1, scoreFormat g < scoreFormat b) ∧
      (∀ g ∈ l2, scoreFormat g ≤ scoreFormat b) :=
  pickBest_earliest_max [fmtMp4x, fmtWebmBig] (by decide)

theorem collectDirect_eq_filter (l : List InnertubeFormat) :
    collectDirect l = l.filter (fun f => optTruthy f.url) := by
  induction l with
  | nil => rfl
  | cons f fs ih =>
    by_cases h : optTruthy f.url = true <;>
      simp [collectDirect, List.filter_cons, h, ih]

theorem collectDirectMuxed_eq_filter (l : List InnertubeFormat) :
    collectDirectMuxed l = l.filter (fun f => optTruthy f.url && isMuxedFormat f) := by
  induction l with
  | nil => rfl
  | cons f fs ih =>
    by_cases h : (optTruthy f.url && isMuxedFormat f) = true <;>
      simp [collectDirectMuxed, List.filter_cons, h, ih]

/-- Claim C7. -/
theorem parseFormats_spec (pr : InnertubePlayerResponse) :
    (pr.streamingData = none → parseFormats pr = []) ∧
    (∀ sd, pr.streamingData = some sd →
      parseFormats pr =
        (sd.formats.getD []).filter (fun f => optTruthy f.url) ++
        (sd.adaptiveFormats.getD []).filter
          (fun f => optTruthy f.url && isMuxedFormat f)) ∧
    (∀ f ∈ parseFormats pr, optTruthy f.url = true) := by
  refine ⟨?_, ?_, ?_⟩
  · intro h
    simp [parseFormats, h]
  · intro sd h
    simp [parseFormats, h, collectDirect_eq_filter, collectDirectMuxed_eq_filter]
  · intro f hf
    cases h : pr.streamingData with
    | none => simp [parseFormats, h] at hf
    | some sd =>
      rw [parseFormats] at hf
      simp only [h] at hf
      rw [collectDirect_eq_filter, collectDirectMuxed_eq_filter] at hf
      rcases List.mem_append.mp hf with hin | hin
      · exact (List.mem_filter.mp hin).2
      · have := (List.mem_filter.mp hin).2
        exact (Bool.and_eq_true _ _ |>.mp this).1

/-- Witness for claim C7. -/
theorem parseFormats_spec_witness :
    parseFormats wResponse =
      ([wFormat].filter (fun f => optTruthy f.url)) ++
      (([] : List InnertubeFormat).filter
        (fun f => optTruthy f.url && isMuxedFormat f)) := by
  have h := (parseFormats_spec wResponse).2.1
    { formats := some [wFormat], adaptiveFormats := some [] } rfl
  simpa using h


theorem tryClients_none_iff (oracle : ClientName → Option InnertubePlayerResponse)
    (cs : List ClientName) :
    tryClients oracle cs = none ↔ ∀ c ∈ cs, profileYield oracle c = [] := by
  induction cs with
  | nil => simp [tryClients]
  | cons c rest ih =>
    cases ho : oracle c with
    | none =>
      have hy : profileYield oracle c = [] := by simp [profileYield, ho]
      simp [tryClients, ho, ih, hy]
    | some resp =>
      by_cases hb : badPlayability resp = true
      · have hy : profileYield oracle c = [] := by simp [profileYield, ho, hb]
        simp [tryClients, ho, hb, ih, hy]
      · have hy : profileYield oracle c = parseFormats resp := by
          simp [profileYield, ho, hb]
        by_cases hf : 0 < (parseFormats resp).length
        · have hne : parseFormats resp ≠ [] := by
            intro he
            rw [he] at hf
            simp at hf
          simp only [tryClients, ho, hb, hf]
          constructor
          · intro hcontra
            simp at hcontra
          · intro hall
            exact absurd (hy ▸ hall c (List.mem_cons_self c rest)) hne
        · have hemp : parseFormats resp = [] := by
            cases hp : parseFormats resp with
            | nil => rfl
            | cons a t => rw [hp] at hf; simp at hf
          have hy2 : profileYield oracle c = [] := by rw [hy, hemp]
          simp [tryClients, ho, hb, hf, ih, hy2]

theorem tryClients_some_spec (oracle : ClientName → Option InnertubePlayerResponse)
    (cs : List ClientName) {fs : List InnertubeFormat}
    {resp : InnertubePlayerResponse}
    (h : tryClients oracle cs = some (fs, resp)) :
    ∃ pre c post, cs = pre ++ c :: post ∧
      (∀ c2 ∈ pre, profileYield oracle c2 = []) ∧
      oracle c = some resp ∧
      profileYield oracle c = fs ∧ fs ≠ [] := by
  induction cs with
  | nil => simp [tryClients] at h
  | cons c rest ih =>
    cases ho : oracle c with
    | none =>
      simp only [tryClients, ho] at h
      obtain ⟨pre, c2, post, h1, h2, h3, h4, h5⟩ := ih h
      refine ⟨c :: pre, c2, post, by rw [List.cons_append, h1], ?_, h3, h4, h5⟩
      intro d hd
      rcases List.mem_cons.mp hd with he | hm
      · subst he
        simp [profileYield, ho]
      · exact h2 d hm
    | some resp2 =>
      by_cases hb : badPlayability resp2 = true
      · simp only [tryClients, ho] at h
        rw [if_pos hb] at h
        obtain ⟨pre, c2, post, h1, h2, h3, h4, h5⟩ := ih h
        refine ⟨c :: pre, c2, post, by rw [List.cons_append, h1], ?_, h3, h4, h5⟩
        intro d hd
        rcases List.mem_cons.mp hd with he | hm
        · subst he
          simp [profileYield, ho, hb]
        · exact h2 d hm
      · by_cases hf : 0 < (parseFormats resp2).length
        · simp only [tryClients, ho] at h
          rw [if_neg hb] at h
          simp only [if_pos hf] at h
          have hfs : parseFormats resp2 = fs ∧ resp2 = resp := by
            have := h
            rw [Option.some.injEq, Prod.mk.injEq] at this
            exact this
          obtain ⟨hfs1, hfs2⟩ := hfs
          refine ⟨[], c, rest, by simp, by simp, by rw [ho, hfs2], ?_, ?_⟩
          · simp only [profileYield, ho]
            rw [if_neg hb]
            exact hfs1
          · intro he
            rw [he] at hfs1
            rw [hfs1] at hf
            simp at hf
        · simp only [tryClients, ho] at h
          rw [if_neg hb] at h
          simp only [if_neg hf] at h
          obtain ⟨pre, c2, post, h1, h2, h3, h4, h5⟩ := ih h
          refine ⟨c :: pre, c2, post, by rw [List.cons_append, h1], ?_, h3, h4, h5⟩
          intro d hd
          rcases List.mem_cons.mp hd with he | hm
          · subst he
            have hemp : parseFormats resp2 = [] := by
              cases hp : parseFormats resp2 with
              | nil => rfl
              | cons a t => rw [hp] at hf; simp at hf
            simp [profileYield, ho, hb, hemp]
          · exact h2 d hm


theorem extract_some_elim {input : Str}
    {oracle : ClientName → Option InnertubePlayerResponse}
    {res : YouTubeExtractionResult} (h : extract input oracle = some res) :
    ∃ vid fs resp,
      extractVideoId input = some vid ∧
      tryClients oracle clients = some (fs, resp) ∧
      res.streams = fs.map mkExtractedStream ∧
      res.bestStream = pickBestStream fs ∧
      res.videoId = vid := by
  cases hv : extractVideoId input with
  | none =>
    rw [extract] at h
    simp only [hv] at h
    exact absurd h (by simp)
  | some vid =>
    rw [extract] at h
    simp only [hv] at h
    cases ht : tryClients oracle clients with
    | none =>
      simp only [ht] at h
      exact absurd h (by simp)
    | some pr =>
      obtain ⟨fs, resp⟩ := pr
      simp only [ht] at h
      rw [Option.some.injEq] at h
      subst h
      exact ⟨vid, fs, resp, rfl, rfl, rfl, rfl, rfl⟩

/-- Claim C8. -/
theorem extract_first_success (input : Str)
    (oracle : ClientName → Option InnertubePlayerResponse) :
    (extract input oracle = none ↔
      (extractVideoId input = none ∨ ∀ c ∈ clients, profileYield oracle c = [])) ∧
    (∀ res, extract input oracle = some res →
      ∃ vid pre c post resp,
        extractVideoId input = some vid ∧ res.videoId = vid ∧
        clients = pre ++ c :: post ∧
        (∀ c2 ∈ pre, profileYield oracle c2 = []) ∧
        oracle c = some resp ∧
        profileYield oracle c ≠ [] ∧
        res.streams = (profileYield oracle c).map mkExtractedStream ∧
        res.bestStream = pickBestStream (profileYield oracle c)) := by
  constructor
  · cases hv : extractVideoId input with
    | none =>
      simp [extract, hv]
    | some vid =>
      cases ht : tryClients oracle clients with
      | none =>
        have hall := (tryClients_none_iff oracle clients).mp ht
        simp only [extract, hv, ht]
        simp
        exact hall
      | some pr =>
        obtain ⟨fs, resp⟩ := pr
        obtain ⟨pre, c, post, hcs, hpre, hoc, hyield, hne⟩ :=
          tryClients_some_spec oracle clients ht
        have hcmem : c ∈ clients := by
          rw [hcs]
          exact List.mem_append_right _ (List.mem_cons_self _ _)
        rw [extract]
        simp only [hv, ht]
        constructor
        · intro habs
          exact absurd habs (by simp)
        · intro hor
          rcases hor with h1 | h2
          · exact absurd h1 (by simp)
          · exact absurd (hyield ▸ h2 c hcmem) hne
  · intro res hres
    obtain ⟨vid, fs, resp, hv, ht, hstreams, hbest, hvid⟩ := extract_some_elim hres
    obtain ⟨pre, c, post, hcs, hpre, hoc, hyield, hne⟩ :=
      tryClients_some_spec oracle clients ht
    exact ⟨vid, pre, c, post, resp, hv, hvid, hcs, hpre, hoc,
      by rw [hyield]; exact hne,
      by rw [hyield]; exact hstreams,
      by rw [hyield]; exact hbest⟩

/-- Witness for claim C8. -/
theorem extract_first_success_witness :
    ∃ vid pre c post resp,
      extractVideoId (chars "dQw4w9WgXcQ") = some vid ∧ wResult.videoId = vid ∧
      clients = pre ++ c :: post ∧
      (∀ c2 ∈ pre, profileYield wOracle c2 = []) ∧
      wOracle c = some resp ∧
      profileYield wOracle c ≠ [] ∧
      wResult.streams = (profileYield wOracle c).map mkExtractedStream ∧
      wResult.bestStream = pickBestStream (profileYield wOracle c) :=
  (extract_first_success (chars "dQw4w9WgXcQ") wOracle).2 wResult (by decide)

/-- Claim C10. -/
theorem extract_result_invariants (input : Str)
    (oracle : ClientName → Option InnertubePlayerResponse)
    (res : YouTubeExtractionResult) (h : extract input oracle = some res) :
    res.streams ≠ [] ∧
    ∃ b, res.bestStream = some b ∧ b.url ∈ res.streams.map (fun s => s.url) := by
  obtain ⟨vid, fs, resp, hv, ht, hstreams, hbest, hvid⟩ := extract_some_elim h
  obtain ⟨pre, c, post, hcs, hpre, hoc, hyield, hne⟩ :=
    tryClients_some_spec oracle clients ht
  constructor
  · rw [hstreams]
    intro he
    exact hne (List.map_eq_nil_iff.mp he)
  · obtain ⟨b, l1, l2, hpick, hpool, h1, h2⟩ := pickBestStream_spec fs hne
    refine ⟨mkExtractedStream b, by rw [hbest, hpick], ?_⟩
    have hbmem_pool :
        b ∈ (if 0 < (fs.filter isVideoMp4).length then fs.filter isVideoMp4 else fs) := by
      rw [hpool]
      exact List.mem_append_right _ (List.mem_cons_self _ _)
    have hbfs : b ∈ fs := by
      by_cases hc : 0 < (fs.filter isVideoMp4).length
      · rw [if_pos hc] at hbmem_pool
        exact List.mem_of_mem_filter hbmem_pool
      · rw [if_neg hc] at hbmem_pool
        exact hbmem_pool
    rw [hstreams, List.map_map]
    exact List.mem_map_of_mem _ hbfs

/-- Witness for claim C10. -/
theorem extract_result_invariants_witness :
    wResult2.streams ≠ [] ∧
    ∃ b, wResult2.bestStream = some b ∧
      b.url ∈ wResult2.streams.map (fun s => s.url) :=
  extract_result_invariants (chars "jNQXAC9IVRw") wOracle2 wResult2 (by decide)

theorem dropWhile_eq_self_of_all {p : Char → Bool} {l : Str}
    (h : ∀ c ∈ l, p c = false) : l.dropWhile p = l := by
  cases l with
  | nil => rfl
  | cons c cs =>
    rw [List.dropWhile_cons]
    rw [h c (List.mem_cons_self c cs)]
    simp

theorem jsTrim_eq_self {l : Str} (h : ∀ c ∈ l, jsWhitespace c = false) :
    jsTrim l = l := by
  rw [jsTrim]
  rw [dropWhile_eq_self_of_all h]
  rw [dropWhile_eq_self_of_all (fun c hm => h c (List.mem_reverse.mp hm))]
  exact List.reverse_reverse l

theorem idChar_not_ws {c : Char} (h : isIdChar c = true) : jsWhitespace c = false := by
  by_contra hws
  rw [Bool.not_eq_false, jsWhitespace] at hws
  simp only [Bool.or_eq_true, beq_iff_eq] at hws
  rcases hws with ((((((h1 | h1) | h1) | h1) | h1) | h1) | h1) <;> subst h1 <;>
    exact absurd h (by decide)

theorem isCanonicalId_sound {s : Str} (h : isCanonicalId s = true) :
    s.length = 11 ∧ ∀ c ∈ s, isIdChar c = true := by
  rw [isCanonicalId, Bool.and_eq_true] at h
  obtain ⟨h1, h2⟩ := h
  refine ⟨by simpa using h1, ?_⟩
  rw [List.all_eq_true] at h2
  exact h2

theorem isCanonicalId_of_parts {id : Str} (hl : id.length = 11)
    (ha : ∀ c ∈ id, isIdChar c = true) : isCanonicalId id = true := by
  rw [isCanonicalId, Bool.and_eq_true]
  exact ⟨by simpa using hl, List.all_eq_true.mpr ha⟩

theorem takeIdChars_sound :
    ∀ {n : Nat} {s id : Str}, takeIdChars n s = some id →
      id.length = n ∧ ∀ c ∈ id, isIdChar c = true := by
  intro n
  induction n with
  | zero =>
    intro s id h
    rw [takeIdChars, Option.some.injEq] at h
    subst h
    simp
  | succ m ih =>
    intro s id h
    cases s with
    | nil => rw [takeIdChars] at h; exact absurd h (by simp)
    | cons c cs =>
      rw [takeIdChars] at h
      by_cases hc : isIdChar c = true
      · rw [if_pos hc] at h
        cases hrec : takeIdChars m cs with
        | none => rw [hrec] at h; exact absurd h (by simp)
        | some r =>
          rw [hrec] at h
          simp only [Option.map_some'] at h
          rw [Option.some.injEq] at h
          subst h
          obtain ⟨hl, hall⟩ := ih hrec
          refine ⟨by simp [hl], ?_⟩
          intro d hd
          rcases List.mem_cons.mp hd with he | hm
          · subst he; exact hc
          · exact hall d hm
      · rw [if_neg hc] at h; exact absurd h (by simp)

theorem tryKeyword_sound {kw s id : Str} (h : tryKeyword kw s = some id) :
    isCanonicalId id = true := by
  rw [tryKeyword] at h
  by_cases hp : kw.isPrefixOf s = true
  · rw [if_pos hp] at h
    obtain ⟨hl, ha⟩ := takeIdChars_sound h
    exact isCanonicalId_of_parts hl ha
  · rw [if_neg hp] at h; exact absurd h (by simp)

theorem matchVideoPath_sound :
    ∀ {l id : Str}, matchVideoPath l = some id → isCanonicalId id = true := by
  intro l
  induction l with
  | nil => intro id h; rw [matchVideoPath] at h; exact absurd h (by simp)
  | cons c cs ih =>
    intro id h
    rw [matchVideoPath] at h
    by_cases hc : (c == '/') = true
    · rw [if_pos hc] at h
      cases h1 : tryKeyword (chars "embed/") cs with
      | some r =>
        simp only [h1, Option.some.injEq] at h
        subst h
        exact tryKeyword_sound h1
      | none =>
        simp only [h1] at h
        cases h2 : tryKeyword (chars "shorts/") cs with
        | some r =>
          simp only [h2, Option.some.injEq] at h
          subst h
          exact tryKeyword_sound h2
        | none =>
          simp only [h2] at h
          cases h3 : tryKeyword (chars "v/") cs with
          | some r =>
            simp only [h3, Option.some.injEq] at h
            subst h
            exact tryKeyword_sound h3
          | none =>
            simp only [h3] at h
            exact ih h
    · rw [if_neg hc] at h
      exact ih h

theorem tryVEq_sound {s id : Str} (h : tryVEq s = some id) :
    isCanonicalId id = true := by
  cases s with
  | nil => simp [tryVEq] at h
  | cons c1 r1 =>
    cases r1 with
    | nil => simp [tryVEq] at h
    | cons c2 r =>
      rw [tryVEq] at h
      by_cases hv : (c1 == 'v' && c2 == '=') = true
      · rw [if_pos hv] at h
        obtain ⟨hl, ha⟩ := takeIdChars_sound h
        exact isCanonicalId_of_parts hl ha
      · rw [if_neg hv] at h; exact absurd h (by simp)

theorem matchVParam_sound :
    ∀ {l id : Str}, matchVParam l = some id → isCanonicalId id = true := by
  intro l
  induction l with
  | nil => intro id h; rw [matchVParam] at h; exact absurd h (by simp)
  | cons c cs ih =>
    intro id h
    rw [matchVParam] at h
    by_cases hc : (c == '?' || c == '&') = true
    · rw [if_pos hc] at h
      cases h1 : tryVEq cs with
      | some r =>
        simp only [h1, Option.some.injEq] at h
        subst h
        exact tryVEq_sound h1
      | none =>
        simp only [h1] at h
        exact ih h
    · rw [if_neg hc] at h
      exact ih h

theorem shortLinkId_sound {url : JsURL} {id : Str}
    (h : shortLinkId url = some id) : isCanonicalId id = true := by
  rw [shortLinkId] at h
  by_cases h1 : (url.hostname == chars "youtu.be") = true
  · rw [if_pos h1] at h
    simp only [] at h
    by_cases h2 : (!(takeUntil (fun c => c == '/') (url.pathname.drop 1)).isEmpty &&
        isCanonicalId (takeUntil (fun c => c == '/') (url.pathname.drop 1))) = true
    · rw [if_pos h2] at h
      rw [Option.some.injEq] at h
      subst h
      exact (Bool.and_eq_true _ _ |>.mp h2).2
    · rw [if_neg h2] at h; exact absurd h (by simp)
  · rw [if_neg h1] at h; exact absurd h (by simp)

theorem queryId_sound {url : JsURL} {id : Str}
    (h : queryId url = some id) : isCanonicalId id = true := by
  rw [queryId] at h
  cases hg : getParam (chars "v") url.search with
  | none => simp only [hg] at h; exact absurd h (by simp)
  | some v =>
    simp only [hg] at h
    by_cases h2 : (!v.isEmpty && isCanonicalId v) = true
    · rw [if_pos h2] at h
      rw [Option.some.injEq] at h
      subst h
      exact (Bool.and_eq_true _ _ |>.mp h2).2
    · rw [if_neg h2] at h; exact absurd h (by simp)

theorem extractVideoId_canonical {s id : Str}
    (h : extractVideoId s = some id) : isCanonicalId id = true := by
  rw [extractVideoId] at h
  by_cases h0 : s.isEmpty = true
  · rw [if_pos h0] at h; exact absurd h (by simp)
  · rw [if_neg h0] at h
    by_cases h1 : isCanonicalId (jsTrim s) = true
    · rw [if_pos h1] at h
      rw [Option.some.injEq] at h
      subst h
      exact h1
    · rw [if_neg h1] at h
      cases hu : parseURL s with
      | none =>
        simp only [hu] at h
        exact matchVParam_sound h
      | some url =>
        simp only [hu] at h
        cases hs : shortLinkId url with
        | some r =>
          simp only [hs, Option.some.injEq] at h
          subst h
          exact shortLinkId_sound hs
        | none =>
          simp only [hs] at h
          cases hq : queryId url with
          | some r =>
            simp only [hq, Option.some.injEq] at h
            subst h
            exact queryId_sound hq
          | none =>
            simp only [hq] at h
            exact matchVideoPath_sound h

/-- Claim C9. -/
theorem parseVideoId_canonical_identity (s : Str) :
    (isCanonicalId (jsTrim s) = true → parseVideoId s = some (jsTrim s)) ∧
    (∀ id, parseVideoId s = some id → parseVideoId id = some id) := by
  constructor
  · intro h
    have h0 : s.isEmpty = false := by
      cases s with
      | nil => exact absurd h (by decide)
      | cons c cs => rfl
    rw [parseVideoId, extractVideoId, h0]
    rw [if_neg (by simp), if_pos h]
  · intro id h
    rw [parseVideoId] at h
    have hc := extractVideoId_canonical h
    have hall : ∀ c ∈ id, isIdChar c = true := (isCanonicalId_sound hc).2
    have hlen : id.length = 11 := (isCanonicalId_sound hc).1
    have hid_trim : jsTrim id = id :=
      jsTrim_eq_self (fun c hm => idChar_not_ws (hall c hm))
    have h0 : id.isEmpty = false := by
      cases id with
      | nil => simp at hlen
      | cons c cs => rfl
    rw [parseVideoId, extractVideoId, h0]
    rw [if_neg (by simp), hid_trim, if_pos hc]

/-- Witness for claim C9. -/
theorem parseVideoId_canonical_identity_witness :
    parseVideoId (chars "dQw4w9WgXcQ") = some (jsTrim (chars "dQw4w9WgXcQ")) :=
  (parseVideoId_canonical_identity (chars "dQw4w9WgXcQ")).1 (by decide)

theorem idChar_ne {c d : Char} (hc : isIdChar c = true) (hd : isIdChar d = false) :
    (c == d) = false := by
  refine beq_eq_false_iff_ne.mpr ?_
  intro e
  subst e
  rw [hc] at hd
  exact absurd hd (by simp)

theorem idChar_not_url {c : Char} (h : isIdChar c = true) :
    (c == ':') = false ∧ (c == '/') = false ∧ (c == '?') = false ∧
    (c == '#') = false ∧ (c == '&') = false ∧ (c == '=') = false :=
  ⟨idChar_ne h (by decide), idChar_ne h (by decide), idChar_ne h (by decide),
   idChar_ne h (by decide), idChar_ne h (by decide), idChar_ne h (by decide)⟩

theorem idChar_url_preds {s : Str} (hs : ∀ c ∈ s, isIdChar c = true) :
    (∀ c ∈ s, (fun x => x == ':') c = false) ∧
    (∀ c ∈ s, (fun x => x == '/' || x == '?' || x == '#') c = false) ∧
    (∀ c ∈ s, (fun x => x == '?' || x == '#') c = false) ∧
    (∀ c ∈ s, (fun x => x == '#') c = false) ∧
    (∀ c ∈ s, (fun x => x == '&') c = false) ∧
    (∀ c ∈ s, (fun x => x == '=') c = false) ∧
    (∀ c ∈ s, (fun x => x == '/') c = false) := by
  refine ⟨?_, ?_, ?_, ?_, ?_, ?_, ?_⟩ <;> intro c hm <;>
    obtain ⟨n1, n2, n3, n4, n5, n6⟩ := idChar_not_url (hs c hm) <;>
    simp [n1, n2, n3, n4, n5, n6]

theorem takeIdChars_eq_take :
    ∀ {n : Nat} {s : Str}, (∀ c ∈ s, isIdChar c = true) → n ≤ s.length →
      takeIdChars n s = some (s.take n) := by
  intro n
  induction n with
  | zero => intro s _ _; simp [takeIdChars]
  | succ m ih =>
    intro s hs hl
    cases s with
    | nil => simp at hl
    | cons c cs =>
      rw [takeIdChars, if_pos (hs c (List.mem_cons_self c cs))]
      rw [ih (fun d hd => hs d (List.mem_cons_of_mem c hd)) (by simpa using hl)]
      simp

theorem takeIdChars_none_of_short :
    ∀ {n : Nat} {s : Str}, s.length < n → takeIdChars n s = none := by
  intro n
  induction n with
  | zero => intro s hl; simp at hl
  | succ m ih =>
    intro s hl
    cases s with
    | nil => rfl
    | cons c cs =>
      rw [takeIdChars]
      by_cases hc : isIdChar c = true
      · rw [if_pos hc, ih (by simpa using hl)]
        rfl
      · rw [if_neg hc]

theorem isCanonicalId_len_ne {s : Str} (h : s.length ≠ 11) :
    isCanonicalId s = false := by
  rw [isCanonicalId]
  rw [beq_eq_false_iff_ne.mpr h, Bool.false_and]

end YTX
